import Mathlib

/-!
  # Merkle claim-generation scripts, checked against their spec

  The repository builds a binary Merkle commitment over
  (address, amount, generatedLoss) entitlement records: each record is
  hashed to a 32-byte leaf (`leafPacked`), layers are folded bottom-up with
  a sorted-pair combine (`hashPair`) and a duplicate-last rule for odd
  layers (`buildTree`), and per-record sibling paths are extracted
  (`getProof`).  This development embeds that core at the byte level —
  hashes are lists of byte values, Keccak-256 is implemented concretely —
  and proves the spec's testable properties about it.
-/

namespace LilypadMerkle

/-! ## Keccak-256

  A concrete, executable Keccak-256 (the pre-SHA-3 padding variant used by
  Ethereum and by viem's `keccak256`).  The state is 25 lanes of 64 bits,
  each lane a `Nat` kept below `2 ^ 64`; messages and digests are lists of
  byte values. -/

/-- The low 64 bits mask. -/
def mask64 : Nat := 2 ^ 64 - 1

/-- Rotate a 64-bit lane left by `n` bits. -/
def rotl64 (x n : Nat) : Nat :=
  ((x <<< n) ||| (x >>> (64 - n))) &&& mask64

/-- The θ step: xor each lane with the parities of two neighbouring columns. -/
def theta (s : List Nat) : List Nat :=
  let c := (List.range 5).map (fun x =>
    s.getD x 0 ^^^ s.getD (x + 5) 0 ^^^ s.getD (x + 10) 0 ^^^
      s.getD (x + 15) 0 ^^^ s.getD (x + 20) 0)
  let d := (List.range 5).map (fun x =>
    c.getD ((x + 4) % 5) 0 ^^^ rotl64 (c.getD ((x + 1) % 5) 0) 1)
  (List.range 25).map (fun i => s.getD i 0 ^^^ d.getD (i % 5) 0)

/-- The ρ rotation offset of the lane at position `x + 5 * y`. -/
def rhoOffset : Nat → Nat
  | 1 => 1
  | 2 => 62
  | 3 => 28
  | 4 => 27
  | 5 => 36
  | 6 => 44
  | 7 => 6
  | 8 => 55
  | 9 => 20
  | 10 => 3
  | 11 => 10
  | 12 => 43
  | 13 => 25
  | 14 => 39
  | 15 => 41
  | 16 => 45
  | 17 => 15
  | 18 => 21
  | 19 => 8
  | 20 => 18
  | 21 => 2
  | 22 => 61
  | 23 => 56
  | 24 => 14
  | _ => 0

/-- The fused ρ and π steps: lane `(X, Y)` of the output is lane
`((X + 3Y) % 5, X)` of the input, rotated by its ρ offset. -/
def rhoPi (s : List Nat) : List Nat :=
  (List.range 25).map (fun j =>
    let x := j % 5
    let y := j / 5
    let src := (x + 3 * y) % 5 + 5 * x
    rotl64 (s.getD src 0) (rhoOffset src))

/-- The χ step: xor each lane with the and of the complement of its right
neighbour and the lane after that, within its row. -/
def chi (s : List Nat) : List Nat :=
  (List.range 25).map (fun j =>
    let x := j % 5
    let y := j / 5
    s.getD j 0 ^^^
      ((mask64 ^^^ s.getD ((x + 1) % 5 + 5 * y) 0) &&&
        s.getD ((x + 2) % 5 + 5 * y) 0))

/-- The ι step: xor the round constant into lane (0,0). -/
def iota (rc : Nat) (s : List Nat) : List Nat :=
  match s with
  | [] => []
  | a :: rest => (a ^^^ rc) :: rest

/-- The 24 Keccak-f[1600] round constants. -/
def roundConstants : List Nat :=
  [0x0000000000000001, 0x0000000000008082, 0x800000000000808a,
   0x8000000080008000, 0x000000000000808b, 0x0000000080000001,
   0x8000000080008081, 0x8000000000008009, 0x000000000000008a,
   0x0000000000000088, 0x0000000080008009, 0x000000008000000a,
   0x000000008000808b, 0x800000000000008b, 0x8000000000008089,
   0x8000000000008003, 0x8000000000008002, 0x8000000000000080,
   0x000000000000800a, 0x800000008000000a, 0x8000000080008081,
   0x8000000000008080, 0x0000000080000001, 0x8000000080008008]

/-- The Keccak-f[1600] permutation: 24 rounds of θ, ρπ, χ, ι. -/
def keccakF (s : List Nat) : List Nat :=
  roundConstants.foldl (fun st rc => iota rc (chi (rhoPi (theta st)))) s

/-- Read a little-endian lane from a list of bytes. -/
def laneOfBytes : List Nat → Nat
  | [] => 0
  | b :: rest => b + 256 * laneOfBytes rest

/-- Split one 136-byte rate block into its 17 lanes. -/
def lanesOfBlock (block : List Nat) : List Nat :=
  (List.range 17).map (fun i => laneOfBytes ((block.drop (8 * i)).take 8))

/-- Absorb one rate block: xor its lanes into the state and permute. -/
def absorbBlock (st : List Nat) (block : List Nat) : List Nat :=
  let lanes := lanesOfBlock block
  keccakF ((List.range 25).map (fun i => st.getD i 0 ^^^ lanes.getD i 0))

/-- Keccak (pre-SHA-3) multi-rate padding for rate 136: append `0x01`,
zero fill, set the top bit of the final byte. -/
def padKeccak (msg : List Nat) : List Nat :=
  let padLen := 136 - msg.length % 136
  if padLen = 1 then msg ++ [0x81]
  else msg ++ [0x01] ++ List.replicate (padLen - 2) 0 ++ [0x80]

/-- Split a list into chunks of 136 elements; `fuel` bounds the recursion
and any value at least the number of chunks gives the full chunking. -/
def chunks : Nat → List Nat → List (List Nat)
  | 0, _ => []
  | _ + 1, [] => []
  | fuel + 1, l => l.take 136 :: chunks fuel (l.drop 136)

/-- Squeeze the 32-byte digest from the first four lanes, little-endian. -/
def digestBytes (st : List Nat) : List Nat :=
  (List.range 32).map (fun i => (st.getD (i / 8) 0 >>> (8 * (i % 8))) % 256)

/-- Keccak-256 of a byte list: pad, absorb every block into the all-zero
state, squeeze 32 bytes. -/
def keccak256 (msg : List Nat) : List Nat :=
  let padded := padKeccak msg
  digestBytes ((chunks padded.length padded).foldl absorbBlock
    (List.replicate 25 0))

/-! ## Hex rendering and the string comparison

  The scripts carry hashes as lowercase `0x…` hex strings and sort a pair
  by comparing those strings with the JavaScript `<` operator, which is
  lexicographic on character codes.  Here a hash is its byte list; the hex
  string it would print as is recovered by `hexString`, and `strLt` is the
  lexicographic comparison on character-code lists. -/

/-- The lowercase hex character (as a character code) of a nibble. -/
def hexCharOfNibble (n : Nat) : Nat :=
  if n < 10 then 48 + n else 87 + n

/-- The character codes of the lowercase hex rendering of a byte list. -/
def hexDigits : List Nat → List Nat
  | [] => []
  | b :: rest => hexCharOfNibble (b / 16) :: hexCharOfNibble (b % 16) :: hexDigits rest

/-- The full hex string of a byte list, `0x` prefix included, as the list
of its character codes. -/
def hexString (bs : List Nat) : List Nat :=
  48 :: 120 :: hexDigits bs

/-- Lexicographic order on character-code lists: the JavaScript `<` on
strings.  The first position where the strings differ decides; a proper
prefix sorts before its extensions. -/
def strLt : List Nat → List Nat → Bool
  | _, [] => false
  | [], _ :: _ => true
  | a :: as, b :: bs =>
      if a < b then true
      else if b < a then false
      else strLt as bs

/-! ## The Merkle core of `gen-merkle.mjs` (first script)

  Byte-level embedding of `leafPacked`, `hashPair`, `buildTree` and
  `getProof`.  Addresses are 20-byte lists, amounts are naturals, hashes
  are 32-byte lists.  The `while (level.length > 1)` loop of `buildTree`
  becomes `buildLayers` with a fuel argument; `buildTree` passes the leaf
  count as fuel, which the layer-count bound shows is always enough. -/

/-- The big-endian `n`-byte representation of a natural number (the
`uint256` encoding when `n = 32`). -/
def beBytes : Nat → Nat → List Nat
  | 0, _ => []
  | n + 1, x => beBytes n (x / 256) ++ [x % 256]

/-- The base-256 value a byte list denotes, most significant byte first. -/
def beValue (bs : List Nat) : Nat :=
  bs.foldl (fun acc b => acc * 256 + b) 0

/-- viem's `encodePacked(["address", "uint256", "uint256"], …)`: the raw
20 address bytes, then the two 32-byte big-endian integers, tightly
concatenated. -/
def encodePackedLeaf (addr : List Nat) (amount generatedLoss : Nat) : List Nat :=
  addr ++ beBytes 32 amount ++ beBytes 32 generatedLoss

/-- `leafPacked`: Keccak-256 of the packed record encoding. -/
def leafPacked (addr : List Nat) (amount generatedLoss : Nat) : List Nat :=
  keccak256 (encodePackedLeaf addr amount generatedLoss)

/-- `hashPair`: combine two hashes in sorted order, where the sort key is
the lowercase hex string of each hash, compared lexicographically.  The
pair is tightly concatenated (`encodePacked(["bytes32", "bytes32"], …)`)
and hashed. -/
def hashPair (a b : List Nat) : List Nat :=
  let A := hexString a
  let B := hexString b
  keccak256 (if strLt A B then a ++ b else b ++ a)

/-- One level-folding pass of `buildTree`'s inner `for` loop: hash
elements pairwise, the unpaired last element of an odd level with
itself. -/
def nextLevel : List (List Nat) → List (List Nat)
  | [] => []
  | [a] => [hashPair a a]
  | a :: b :: rest => hashPair a b :: nextLevel rest

/-- The `while (level.length > 1)` loop of `buildTree`, rendered with
fuel: collect the current level and recurse on `nextLevel`. -/
def buildLayers : Nat → List (List Nat) → List (List (List Nat))
  | 0, level => [level]
  | fuel + 1, level =>
      if level.length ≤ 1 then [level]
      else level :: buildLayers fuel (nextLevel level)

/-- The root as `buildTree` reads it off: first element of the last
layer. -/
def rootOf (layers : List (List (List Nat))) : List Nat :=
  (layers.getLastD []).headD []

/-- `buildTree`: reject an empty leaf list, otherwise fold layers until a
single hash remains and return it with the retained layer structure. -/
def buildTree (leaves : List (List Nat)) :
    Option (List Nat × List (List (List Nat))) :=
  if leaves.isEmpty then none
  else
    let layers := buildLayers leaves.length leaves
    some (rootOf layers, layers)

/-- JavaScript `Array.prototype.indexOf`, except that a missed search is
reported as the list's length rather than `-1`. -/
def idxOf (x : List Nat) (l : List (List Nat)) : Nat :=
  match l with
  | [] => 0
  | a :: as => if a = x then 0 else idxOf x as + 1

/-- The sibling position: one left of an odd index, one right of an even
index. -/
def sibIdx (idx : Nat) : Nat :=
  if idx % 2 = 1 then idx - 1 else idx + 1

/-- The sibling `getProof` records at one level: the hash at the sibling
position, or the element itself when the sibling position falls past the
end of the layer. -/
def siblingAt (layer : List (List Nat)) (idx : Nat) : List Nat :=
  if sibIdx idx < layer.length then layer.getD (sibIdx idx) []
  else layer.getD idx []

/-- The `for (level = 0; level < layers.length - 1; …)` loop of
`getProof`: record one sibling per layer transition, halving the index
each step. -/
def proofAux : List (List (List Nat)) → Nat → List (List Nat)
  | [], _ => []
  | [_], _ => []
  | layer :: next :: rest, idx =>
      siblingAt layer idx :: proofAux (next :: rest) (idx / 2)

/-- `getProof`: locate the leaf's first occurrence in layer 0 (error when
absent) and walk the layers collecting siblings. -/
def getProof (leaf : List Nat) (layers : List (List (List Nat))) :
    Option (List (List Nat)) :=
  let layer0 := layers.headD []
  let idx := idxOf leaf layer0
  if idx < layer0.length then some (proofAux layers idx) else none

/-- Modelled from the spec: the implied verifier, not present as code —
"recomputes the root from a leaf and its proof using the same
pair-hashing rule", by repeatedly applying `hashPair` to the current hash
and the successive proof elements. -/
def processProof (leaf : List Nat) (proof : List (List Nat)) : List Nat :=
  proof.foldl hashPair leaf

/-! ## The sorted pair, named -/

/-- The byte-lexicographic minimum of two hashes. -/
def lexMin (a b : List Nat) : List Nat := if strLt a b then a else b

/-- The byte-lexicographic maximum of two hashes. -/
def lexMax (a b : List Nat) : List Nat := if strLt a b then b else a

/-! ## Concrete 32-byte leaves used as evaluation inputs -/

/-- The all-zero 32-byte hash. -/
def leafA : List Nat := List.replicate 32 0

/-- A 32-byte hash ending in `01`. -/
def leafB : List Nat := List.replicate 31 0 ++ [1]

/-- A 32-byte hash ending in `02`. -/
def leafC : List Nat := List.replicate 31 0 ++ [2]

/-- The all-zero 20-byte address. -/
def addrZero : List Nat := List.replicate 20 0

/-! ## The second script bundled in `gen-merkle.mjs`

  A verbatim re-statement of its Merkle helpers; the only textual
  difference from the first script is that `hashPair` writes the
  lowercase comparison inline in the ternary. -/

namespace V2

/-- `leafPacked` of the second script. -/
def leafPacked (addr : List Nat) (amount generatedLoss : Nat) : List Nat :=
  keccak256 (addr ++ beBytes 32 amount ++ beBytes 32 generatedLoss)

/-- `hashPair` of the second script. -/
def hashPair (a b : List Nat) : List Nat :=
  keccak256 (if strLt (hexString a) (hexString b) then a ++ b else b ++ a)

/-- The level fold of the second script's `buildTree` loop. -/
def nextLevel : List (List Nat) → List (List Nat)
  | [] => []
  | [a] => [hashPair a a]
  | a :: b :: rest => hashPair a b :: nextLevel rest

/-- The layer loop of the second script's `buildTree`. -/
def buildLayers : Nat → List (List Nat) → List (List (List Nat))
  | 0, level => [level]
  | fuel + 1, level =>
      if level.length ≤ 1 then [level]
      else level :: buildLayers fuel (nextLevel level)

/-- `buildTree` of the second script. -/
def buildTree (leaves : List (List Nat)) :
    Option (List Nat × List (List (List Nat))) :=
  if leaves.isEmpty then none
  else
    let layers := buildLayers leaves.length leaves
    some (rootOf layers, layers)

/-- `getProof` of the second script. -/
def getProof (leaf : List Nat) (layers : List (List (List Nat))) :
    Option (List (List Nat)) :=
  let layer0 := layers.headD []
  let idx := idxOf leaf layer0
  if idx < layer0.length then some (proofAux layers idx) else none

end V2

/-! ## The third script, ` gen-merkle.mjs`

  Verbatim again; its `hashPair` destructures the sorted pair into
  `left`/`right` before concatenating. -/

namespace V3

/-- `leafPacked` of the third script. -/
def leafPacked (addr : List Nat) (amount generatedLoss : Nat) : List Nat :=
  keccak256 (addr ++ beBytes 32 amount ++ beBytes 32 generatedLoss)

/-- `hashPair` of the third script. -/
def hashPair (a b : List Nat) : List Nat :=
  let aa := hexString a
  let bb := hexString b
  let p := if strLt aa bb then (a, b) else (b, a)
  keccak256 (p.1 ++ p.2)

/-- The level fold of the third script's `buildTree` loop. -/
def nextLevel : List (List Nat) → List (List Nat)
  | [] => []
  | [a] => [hashPair a a]
  | a :: b :: rest => hashPair a b :: nextLevel rest

/-- The layer loop of the third script's `buildTree`. -/
def buildLayers : Nat → List (List Nat) → List (List (List Nat))
  | 0, level => [level]
  | fuel + 1, level =>
      if level.length ≤ 1 then [level]
      else level :: buildLayers fuel (nextLevel level)

/-- `buildTree` of the third script. -/
def buildTree (leaves : List (List Nat)) :
    Option (List Nat × List (List (List Nat))) :=
  if leaves.isEmpty then none
  else
    let layers := buildLayers leaves.length leaves
    some (rootOf layers, layers)

/-- `getProof` of the third script. -/
def getProof (leaf : List Nat) (layers : List (List (List Nat))) :
    Option (List (List Nat)) :=
  let layer0 := layers.headD []
  let idx := idxOf leaf layer0
  if idx < layer0.length then some (proofAux layers idx) else none

end V3

/-! ## The encoding `generate-claims.mjs` actually uses -/

/-- The ABI `encode` (not packed) of the tuple
`(address, uint256, uint256)`: every field occupies a full 32-byte word,
the address left-padded with 12 zero bytes, 96 bytes in total. -/
def abiEncodeLeaf (addr : List Nat) (amount generatedLoss : Nat) :
    List Nat :=
  List.replicate 12 0 ++ addr ++ beBytes 32 amount ++ beBytes 32 generatedLoss

/-- Modelled from the spec (and the documented behaviour of the external
`@openzeppelin/merkle-tree` dependency, which is not part of this
repository's sources): `generate-claims.mjs` builds its leaves with
`StandardMerkleTree.of(entries, ["address", "uint256", "uint256"])`,
whose standard leaf is the double hash
`keccak256(keccak256(abi.encode(address, amount, generatedLoss)))` of the
padded ABI tuple encoding. -/
def standardLeafHash (addr : List Nat) (amount generatedLoss : Nat) :
    List Nat :=
  keccak256 (keccak256 (abiEncodeLeaf addr amount generatedLoss))

/-! ## Output shape of the hash -/

theorem keccak256_length (m : List Nat) : (keccak256 m).length = 32 := by
  simp [keccak256, digestBytes]

theorem keccak256_bytes_lt (m : List Nat) : ∀ b ∈ keccak256 m, b < 256 := by
  intro b hb
  simp only [keccak256, digestBytes, List.mem_map, List.mem_range] at hb
  obtain ⟨i, _, rfl⟩ := hb
  exact Nat.mod_lt _ (by norm_num)

theorem hashPair_length (a b : List Nat) : (hashPair a b).length = 32 := by
  unfold hashPair
  exact keccak256_length _

theorem hashPair_bytes_lt (a b : List Nat) : ∀ c ∈ hashPair a b, c < 256 := by
  unfold hashPair
  exact keccak256_bytes_lt _

/-! ## The string comparison versus byte order -/

theorem strLt_asymm : ∀ x y : List Nat, strLt x y = true → strLt y x = false
  | [], [], h => by simp [strLt] at h
  | _ :: _, [], h => by simp [strLt] at h
  | [], _ :: _, _ => by simp [strLt]
  | a :: as, b :: bs, h => by
      simp only [strLt] at h ⊢
      by_cases h1 : a < b
      · rw [if_neg (by omega : ¬ b < a), if_pos h1]
      · by_cases h2 : b < a
        · rw [if_neg h1, if_pos h2] at h
          exact absurd h (by simp)
        · rw [if_neg h1, if_neg h2] at h
          rw [if_neg h2, if_neg h1]
          exact strLt_asymm as bs h

theorem strLt_eq_of_not :
    ∀ x y : List Nat, strLt x y = false → strLt y x = false → x = y
  | [], [], _, _ => rfl
  | _ :: _, [], _, h' => by simp [strLt] at h'
  | [], _ :: _, h, _ => by simp [strLt] at h
  | a :: as, b :: bs, h, h' => by
      simp only [strLt] at h h'
      by_cases h1 : a < b
      · rw [if_pos h1] at h
        exact absurd h (by simp)
      · by_cases h2 : b < a
        · rw [if_pos h2] at h'
          exact absurd h' (by simp)
        · rw [if_neg h1, if_neg h2] at h
          have hab : a = b := by omega
          rw [hab, strLt_eq_of_not as bs h (by rwa [if_neg h2, if_neg h1] at h')]

set_option maxRecDepth 8000 in
/-- On nibbles the hex character map reflects the strict order. -/
theorem hexCharOfNibble_lt_iff : ∀ m, m < 16 → ∀ n, n < 16 →
    (hexCharOfNibble m < hexCharOfNibble n ↔ m < n) := by
  decide

set_option maxRecDepth 8000 in
/-- On nibbles the hex character map is injective. -/
theorem hexCharOfNibble_eq_iff : ∀ m, m < 16 → ∀ n, n < 16 →
    (hexCharOfNibble m = hexCharOfNibble n ↔ m = n) := by
  decide

/-- The two-character hex rendering of a byte compares exactly as the
byte does. -/
theorem nibblePair_lt_iff (a b : Nat) (ha : a < 256) (hb : b < 256) :
    (hexCharOfNibble (a / 16) < hexCharOfNibble (b / 16) ∨
      (hexCharOfNibble (a / 16) = hexCharOfNibble (b / 16) ∧
       hexCharOfNibble (a % 16) < hexCharOfNibble (b % 16))) ↔ a < b := by
  rw [hexCharOfNibble_lt_iff (a / 16) (by omega) (b / 16) (by omega),
    hexCharOfNibble_eq_iff (a / 16) (by omega) (b / 16) (by omega),
    hexCharOfNibble_lt_iff (a % 16) (by omega) (b % 16) (by omega)]
  omega

/-- On byte lists the hex rendering is order-preserving: comparing the
lowercase hex strings is comparing the bytes. -/
theorem strLt_hexDigits : ∀ a b : List Nat,
    (∀ x ∈ a, x < 256) → (∀ x ∈ b, x < 256) →
    strLt (hexDigits a) (hexDigits b) = strLt a b
  | [], [], _, _ => rfl
  | _ :: _, [], _, _ => by simp [strLt, hexDigits]
  | [], _ :: _, _, _ => by simp [strLt, hexDigits]
  | a :: as, b :: bs, ha, hb => by
      have ha0 : a < 256 := ha a (by simp)
      have hb0 : b < 256 := hb b (by simp)
      have has : ∀ x ∈ as, x < 256 := fun x hx => ha x (by simp [hx])
      have hbs : ∀ x ∈ bs, x < 256 := fun x hx => hb x (by simp [hx])
      simp only [hexDigits, strLt]
      rcases Nat.lt_trichotomy a b with hab | hab | hab
      · rcases (nibblePair_lt_iff a b ha0 hb0).mpr hab with hc | ⟨hc, hc'⟩
        · rw [if_pos hc, if_pos hab]
        · rw [hc, if_neg (lt_irrefl _), if_neg (lt_irrefl _), if_pos hc',
            if_pos hab]
      · subst hab
        rw [if_neg (lt_irrefl _), if_neg (lt_irrefl _), if_neg (lt_irrefl _),
          if_neg (lt_irrefl _), if_neg (lt_irrefl _), if_neg (lt_irrefl _)]
        exact strLt_hexDigits as bs has hbs
      · rcases (nibblePair_lt_iff b a hb0 ha0).mpr hab with hc | ⟨hc, hc'⟩
        · rw [if_neg (by omega : ¬ a < b)]
          rw [if_neg (by omega : ¬ hexCharOfNibble (a / 16) <
              hexCharOfNibble (b / 16)), if_pos hc, if_pos hab]
        · rw [hc, if_neg (lt_irrefl _), if_neg (lt_irrefl _),
            if_neg (by omega : ¬ hexCharOfNibble (a % 16) <
              hexCharOfNibble (b % 16)), if_pos hc',
            if_neg (by omega : ¬ a < b), if_pos hab]

/-- Comparing full hex strings (`0x` prefix included) is comparing the
underlying bytes. -/
theorem strLt_hexString (a b : List Nat)
    (ha : ∀ x ∈ a, x < 256) (hb : ∀ x ∈ b, x < 256) :
    strLt (hexString a) (hexString b) = strLt a b := by
  have h1 : ¬ (48 : Nat) < 48 := lt_irrefl _
  have h2 : ¬ (120 : Nat) < 120 := lt_irrefl _
  simp only [hexString, strLt, if_neg h1, if_neg h2]
  exact strLt_hexDigits a b ha hb

/-! ## Symmetry and the sorted form of the pair combine -/

theorem hashPair_eq_sorted (a b : List Nat)
    (ha : ∀ x ∈ a, x < 256) (hb : ∀ x ∈ b, x < 256) :
    hashPair a b = keccak256 (lexMin a b ++ lexMax a b) := by
  simp only [hashPair, lexMin, lexMax, strLt_hexString a b ha hb]
  cases h : strLt a b <;> simp [h]

theorem hashPair_comm (a b : List Nat)
    (ha : ∀ x ∈ a, x < 256) (hb : ∀ x ∈ b, x < 256) :
    hashPair a b = hashPair b a := by
  simp only [hashPair, strLt_hexString a b ha hb, strLt_hexString b a hb ha]
  cases h1 : strLt a b
  · cases h2 : strLt b a
    · rw [strLt_eq_of_not a b h1 h2]
    · simp
  · rw [strLt_asymm a b h1]
    simp

/-! ## Structure of the layer fold -/

theorem nextLevel_length : ∀ l : List (List Nat),
    (nextLevel l).length = (l.length + 1) / 2
  | [] => by simp [nextLevel]
  | [_] => by simp [nextLevel]
  | _ :: _ :: rest => by
      simp only [nextLevel, List.length_cons, nextLevel_length rest]
      omega

theorem nextLevel_valid : ∀ l : List (List Nat), ∀ x ∈ nextLevel l,
    x.length = 32 ∧ ∀ c ∈ x, c < 256
  | [] => by simp [nextLevel]
  | [a] => by
      intro x hx
      simp only [nextLevel, List.mem_singleton] at hx
      subst hx
      exact ⟨hashPair_length a a, hashPair_bytes_lt a a⟩
  | a :: b :: rest => by
      intro x hx
      simp only [nextLevel, List.mem_cons] at hx
      rcases hx with rfl | hx
      · exact ⟨hashPair_length a b, hashPair_bytes_lt a b⟩
      · exact nextLevel_valid rest x hx

theorem buildLayers_ne_nil : ∀ (fuel : Nat) (level : List (List Nat)),
    buildLayers fuel level ≠ []
  | 0, _ => by simp [buildLayers]
  | _ + 1, level => by
      simp only [buildLayers]
      split <;> simp

theorem buildLayers_headD : ∀ (fuel : Nat) (level : List (List Nat)),
    (buildLayers fuel level).headD [] = level
  | 0, _ => rfl
  | _ + 1, level => by
      simp only [buildLayers]
      split <;> rfl

theorem rootOf_cons (x : List (List Nat)) (L : List (List (List Nat)))
    (h : L ≠ []) : rootOf (x :: L) = rootOf L := by
  cases L with
  | nil => exact absurd rfl h
  | cons y L' => simp [rootOf, List.getLastD_cons]

/-! ## The first-occurrence index -/

theorem idxOf_le_length : ∀ (x : List Nat) (l : List (List Nat)),
    idxOf x l ≤ l.length
  | _, [] => Nat.le_refl 0
  | x, a :: as => by
      simp only [idxOf, List.length_cons]
      split
      · omega
      · have := idxOf_le_length x as
        omega

theorem idxOf_lt_length_iff : ∀ (x : List Nat) (l : List (List Nat)),
    idxOf x l < l.length ↔ x ∈ l
  | x, [] => by simp [idxOf]
  | x, a :: as => by
      simp only [idxOf, List.length_cons, List.mem_cons]
      split
      · rename_i h
        constructor
        · intro _
          exact Or.inl h.symm
        · intro _
          omega
      · rename_i h
        rw [Nat.add_lt_add_iff_right, idxOf_lt_length_iff x as]
        constructor
        · exact Or.inr
        · rintro (rfl | hm)
          · exact absurd rfl h
          · exact hm

theorem getD_idxOf : ∀ (x : List Nat) (l : List (List Nat)), x ∈ l →
    l.getD (idxOf x l) [] = x
  | x, a :: as, h => by
      simp only [idxOf]
      split
      · rename_i ha
        simpa using ha
      · rename_i ha
        have hmem : x ∈ as := by
          rcases List.mem_cons.mp h with rfl | hm
          · exact absurd rfl ha
          · exact hm
        simpa [List.getD_cons_succ] using getD_idxOf x as hmem

theorem idxOf_first : ∀ (x : List Nat) (l : List (List Nat)) (j : Nat),
    j < idxOf x l → l.getD j [] ≠ x
  | x, [], j, h => by simp [idxOf] at h
  | x, a :: as, j, h => by
      simp only [idxOf] at h
      split at h
      · omega
      · rename_i ha
        cases j with
        | zero => simpa using ha
        | succ j' =>
            simp only [List.getD_cons_succ]
            exact idxOf_first x as j' (by omega)

/-! ## One proof step recomputes one layer step -/

theorem siblingAt_cons2 (A B : List Nat) (rest : List (List Nat)) (k : Nat) :
    siblingAt (A :: B :: rest) (k + 2) = siblingAt rest k := by
  by_cases hp : k % 2 = 1
  · have hp2 : (k + 2) % 2 = 1 := by omega
    simp only [siblingAt, sibIdx, if_pos hp, if_pos hp2, List.length_cons]
    have e1 : k + 2 - 1 = k - 1 + 2 := by omega
    rw [e1]
    by_cases hc : k - 1 < rest.length
    · rw [if_pos (by omega : k - 1 + 2 < rest.length + 1 + 1), if_pos hc]
      simp only [List.getD_cons_succ]
    · rw [if_neg (by omega : ¬ k - 1 + 2 < rest.length + 1 + 1), if_neg hc]
      simp only [List.getD_cons_succ]
  · have hp2 : ¬ (k + 2) % 2 = 1 := by omega
    simp only [siblingAt, sibIdx, if_neg hp, if_neg hp2, List.length_cons]
    have e1 : k + 2 + 1 = k + 1 + 2 := rfl
    rw [e1]
    by_cases hc : k + 1 < rest.length
    · rw [if_pos (by omega : k + 1 + 2 < rest.length + 1 + 1), if_pos hc]
      simp only [List.getD_cons_succ]
    · rw [if_neg (by omega : ¬ k + 1 + 2 < rest.length + 1 + 1), if_neg hc]
      simp only [List.getD_cons_succ]

theorem combine_step : ∀ (level : List (List Nat)) (idx : Nat),
    idx < level.length → (∀ x ∈ level, ∀ c ∈ x, c < 256) →
    (nextLevel level).getD (idx / 2) [] =
      hashPair (level.getD idx []) (siblingAt level idx)
  | [], idx, h, _ => by simp at h
  | [a], 0, _, _ => by
      simp [nextLevel, siblingAt, sibIdx]
  | [a], n + 1, h, _ => by
      simp at h
  | a :: b :: rest, 0, _, _ => by
      simp [nextLevel, siblingAt, sibIdx]
  | a :: b :: rest, 1, _, hv => by
      have ha : ∀ c ∈ a, c < 256 := hv a (by simp)
      have hb : ∀ c ∈ b, c < 256 := hv b (by simp)
      simp [nextLevel, siblingAt, sibIdx, hashPair_comm b a hb ha]
  | a :: b :: rest, k + 2, h, hv => by
      have hk : k < rest.length := by
        simp only [List.length_cons] at h
        omega
      have hv' : ∀ x ∈ rest, ∀ c ∈ x, c < 256 :=
        fun x hx => hv x (by simp [hx])
      have hdiv : (k + 2) / 2 = k / 2 + 1 := by omega
      rw [hdiv]
      simp only [nextLevel, List.getD_cons_succ, siblingAt_cons2]
      exact combine_step rest k hk hv'

/-! ## The round trip: a proof folds back to the root -/

theorem foldl_proofAux : ∀ (fuel : Nat) (level : List (List Nat)) (idx : Nat),
    level.length ≤ fuel → idx < level.length →
    (∀ x ∈ level, ∀ c ∈ x, c < 256) →
    List.foldl hashPair (level.getD idx [])
        (proofAux (buildLayers fuel level) idx)
      = rootOf (buildLayers fuel level) := by
  intro fuel
  induction fuel with
  | zero =>
      intro level idx h1 h2 _
      omega
  | succ fuel ih =>
      intro level idx h1 h2 hv
      by_cases hlen : level.length ≤ 1
      · have hbl : buildLayers (fuel + 1) level = [level] := by
          simp [buildLayers, hlen]
        rw [hbl]
        cases level with
        | nil => simp at h2
        | cons a as =>
            have has : as = [] := by
              simp only [List.length_cons] at hlen
              exact List.eq_nil_of_length_eq_zero (by omega)
            subst has
            have hidx : idx = 0 := by
              simp only [List.length_cons, List.length_nil] at h2
              omega
            subst hidx
            rfl
      · have hbl : buildLayers (fuel + 1) level
            = level :: buildLayers fuel (nextLevel level) := by
          simp [buildLayers, hlen]
        rw [hbl]
        obtain ⟨l₀, L', hL⟩ : ∃ l₀ L',
            buildLayers fuel (nextLevel level) = l₀ :: L' := by
          cases hbb : buildLayers fuel (nextLevel level) with
          | nil => exact absurd hbb (buildLayers_ne_nil _ _)
          | cons x xs => exact ⟨x, xs, rfl⟩
        rw [hL]
        simp only [proofAux, List.foldl_cons]
        rw [← combine_step level idx h2 hv]
        have hlen2 : (nextLevel level).length ≤ fuel := by
          rw [nextLevel_length]
          omega
        have hidx2 : idx / 2 < (nextLevel level).length := by
          rw [nextLevel_length]
          omega
        have hstep := ih (nextLevel level) (idx / 2) hlen2 hidx2
          (fun x hx => (nextLevel_valid level x hx).2)
        rw [hL] at hstep
        rw [hstep]
        exact (rootOf_cons level (l₀ :: L') (by simp)).symm

/-! ## Reading off `buildTree`'s result -/

theorem buildTree_eq (leaves : List (List Nat)) (root : List Nat)
    (layers : List (List (List Nat)))
    (h : buildTree leaves = some (root, layers)) :
    leaves ≠ [] ∧ layers = buildLayers leaves.length leaves ∧
      root = rootOf layers := by
  by_cases he : leaves.isEmpty
  · simp [buildTree, he] at h
  · simp only [buildTree, if_neg he, Option.some.injEq, Prod.mk.injEq] at h
    refine ⟨by simpa [List.isEmpty_iff] using he, h.2.symm, ?_⟩
    rw [← h.1, ← h.2]

/-! ## The claims -/

/-- Claim C1: for every non-empty list of 32-byte leaves and every leaf
occurring in layer 0 of the tree built from it, starting from that leaf
and repeatedly applying `hashPair` to the current hash and the successive
elements of `getProof leaf layers` yields exactly the root returned by
`buildTree leaves`. -/
theorem merkle_roundtrip (leaves : List (List Nat)) (hne : leaves ≠ [])
    (hval : ∀ x ∈ leaves, x.length = 32 ∧ ∀ c ∈ x, c < 256)
    (leaf : List Nat) (hmem : leaf ∈ leaves) :
    ∃ root layers proof,
      buildTree leaves = some (root, layers) ∧
      getProof leaf layers = some proof ∧
      processProof leaf proof = root := by
  have hbt : buildTree leaves
      = some (rootOf (buildLayers leaves.length leaves),
              buildLayers leaves.length leaves) := by
    cases leaves with
    | nil => exact absurd rfl hne
    | cons a as => rfl
  refine ⟨_, _,
    proofAux (buildLayers leaves.length leaves) (idxOf leaf leaves),
    hbt, ?_, ?_⟩
  · simp only [getProof, buildLayers_headD]
    rw [if_pos ((idxOf_lt_length_iff leaf leaves).mpr hmem)]
  · have h2 : idxOf leaf leaves < leaves.length :=
      (idxOf_lt_length_iff leaf leaves).mpr hmem
    have hf := foldl_proofAux leaves.length leaves (idxOf leaf leaves)
      (Nat.le_refl _) h2 (fun x hx => (hval x hx).2)
    rw [getD_idxOf leaf leaves hmem] at hf
    exact hf

/-- Concrete instance of the round trip on a two-leaf tree. -/
theorem merkle_roundtrip_witness :
    ∃ root layers proof,
      buildTree [leafA, leafB] = some (root, layers) ∧
      getProof leafA layers = some proof ∧
      processProof leafA proof = root :=
  merkle_roundtrip [leafA, leafB] (by decide) (by decide) leafA (by decide)

/-- Claim C3: on 32-byte hashes, `hashPair` is Keccak-256 of the 64-byte
concatenation of the byte-lexicographic minimum followed by the maximum —
the lowercase-hex-string comparison the code performs coincides with
byte-lexicographic order — and consequently `hashPair` is symmetric. -/
theorem hashPair_sorted_of_valid (a b : List Nat)
    (ha : a.length = 32 ∧ ∀ c ∈ a, c < 256)
    (hb : b.length = 32 ∧ ∀ c ∈ b, c < 256) :
    hashPair a b = keccak256 (lexMin a b ++ lexMax a b) ∧
    hashPair a b = hashPair b a :=
  ⟨hashPair_eq_sorted a b ha.2 hb.2, hashPair_comm a b ha.2 hb.2⟩

/-- Concrete instance of the sorted-pair characterisation. -/
theorem hashPair_sorted_of_valid_witness :
    hashPair leafA leafB = keccak256 (lexMin leafA leafB ++ lexMax leafA leafB) ∧
    hashPair leafA leafB = hashPair leafB leafA :=
  hashPair_sorted_of_valid leafA leafB (by decide) (by decide)

/-- Claim C5: a tree built from one leaf has that leaf as root, layer
structure `[[L]]`, and the empty proof. -/
theorem buildTree_single (L : List Nat) :
    buildTree [L] = some (L, [[L]]) ∧ getProof L [[L]] = some [] := by
  constructor
  · rfl
  · simp only [getProof, List.headD_cons]
    rw [idxOf, if_pos rfl]
    rfl

/-- Concrete instance of the single-leaf tree. -/
theorem buildTree_single_witness :
    buildTree [leafA] = some (leafA, [[leafA]]) ∧
    getProof leafA [[leafA]] = some [] :=
  buildTree_single leafA

/-- Claim C6: `getProof` fails exactly when the queried leaf does not
occur in layer 0, and a found leaf is resolved to its first (lowest-index)
occurrence: every position before `idxOf` holds a different value and the
returned proof is the one computed from `idxOf`. -/
theorem getProof_spec (layers : List (List (List Nat))) (leaf : List Nat) :
    (getProof leaf layers = none ↔ leaf ∉ layers.headD []) ∧
    (leaf ∈ layers.headD [] →
      getProof leaf layers
        = some (proofAux layers (idxOf leaf (layers.headD [])))) ∧
    (∀ j, j < idxOf leaf (layers.headD []) →
      (layers.headD []).getD j [] ≠ leaf) := by
  refine ⟨?_, ?_, fun j hj => idxOf_first leaf _ j hj⟩
  · by_cases h : idxOf leaf (layers.headD []) < (layers.headD []).length
    · simp only [getProof, if_pos h]
      constructor
      · intro hc
        exact absurd hc (by simp)
      · intro hnot
        exact absurd ((idxOf_lt_length_iff _ _).mp h) hnot
    · simp only [getProof, if_neg h]
      constructor
      · intro _ hmem
        exact h ((idxOf_lt_length_iff _ _).mpr hmem)
      · intro _
        trivial
  · intro hmem
    simp only [getProof]
    rw [if_pos ((idxOf_lt_length_iff _ _).mpr hmem)]

/-- Concrete instances: a present leaf gets the first-occurrence proof, an
absent leaf is an error. -/
theorem getProof_spec_witness :
    getProof leafA [[leafA, leafB], [hashPair leafA leafB]]
      = some (proofAux [[leafA, leafB], [hashPair leafA leafB]]
          (idxOf leafA ([[leafA, leafB],
            [hashPair leafA leafB]].headD []))) ∧
    getProof leafC [[leafA, leafB], [hashPair leafA leafB]] = none :=
  ⟨(getProof_spec [[leafA, leafB], [hashPair leafA leafB]] leafA).2.1
      (by decide),
   (getProof_spec [[leafA, leafB], [hashPair leafA leafB]] leafC).1.mpr
      (by decide)⟩

/-- Claim C7: `buildTree` rejects the empty leaf list with an error and no
partial result, and succeeds on every non-empty leaf list. -/
theorem buildTree_total :
    buildTree [] = none ∧
    ∀ leaves : List (List Nat), leaves ≠ [] →
      ∃ root layers, buildTree leaves = some (root, layers) := by
  constructor
  · rfl
  · intro leaves h
    cases leaves with
    | nil => exact absurd rfl h
    | cons a as => exact ⟨_, _, rfl⟩

/-- Concrete instance: a one-leaf list builds. -/
theorem buildTree_total_witness :
    ∃ root layers, buildTree [leafA] = some (root, layers) :=
  buildTree_total.2 [leafA] (by decide)

/-- Claim C4, amended: a 3-leaf tree always has layer 1
`[hashPair L0 L1, hashPair L2 L2]` (the odd last element paired with
itself) and root `hashPair` of the two; and when `L2` differs from `L0`
and from `L1` — so that its first occurrence in layer 0 is position 2 —
`getProof L2` is the two-element proof `[L2, hashPair L0 L1]`. -/
theorem buildTree_three (L0 L1 L2 : List Nat) :
    buildTree [L0, L1, L2]
      = some (hashPair (hashPair L0 L1) (hashPair L2 L2),
          [[L0, L1, L2],
           [hashPair L0 L1, hashPair L2 L2],
           [hashPair (hashPair L0 L1) (hashPair L2 L2)]]) ∧
    (L2 ≠ L0 → L2 ≠ L1 →
      getProof L2
          [[L0, L1, L2],
           [hashPair L0 L1, hashPair L2 L2],
           [hashPair (hashPair L0 L1) (hashPair L2 L2)]]
        = some [L2, hashPair L0 L1]) := by
  constructor
  · rfl
  · intro h0 h1
    have hidx : idxOf L2 [L0, L1, L2] = 2 := by
      rw [idxOf, if_neg (fun h => h0 h.symm), idxOf,
        if_neg (fun h => h1 h.symm), idxOf, if_pos rfl]
    simp only [getProof, List.headD_cons, hidx]
    rfl

/-- Claim C4 as stated fails when `L2` coincides with an earlier leaf:
with `L0 = L2 = leafA` and `L1 = leafB`, `getProof` resolves the query to
position 0 and returns `[leafB, hashPair leafA leafA]`, not the claimed
`[L2, hashPair L0 L1]`. -/
theorem buildTree_three_counterexample :
    buildTree [leafA, leafB, leafA]
      = some (hashPair (hashPair leafA leafB) (hashPair leafA leafA),
          [[leafA, leafB, leafA],
           [hashPair leafA leafB, hashPair leafA leafA],
           [hashPair (hashPair leafA leafB) (hashPair leafA leafA)]]) ∧
    getProof leafA
        [[leafA, leafB, leafA],
         [hashPair leafA leafB, hashPair leafA leafA],
         [hashPair (hashPair leafA leafB) (hashPair leafA leafA)]]
      ≠ some [leafA, hashPair leafA leafB] := by
  constructor
  · rfl
  · intro h
    have hval : getProof leafA
        [[leafA, leafB, leafA],
         [hashPair leafA leafB, hashPair leafA leafA],
         [hashPair (hashPair leafA leafB) (hashPair leafA leafA)]]
        = some [leafB, hashPair leafA leafA] := by
      simp only [getProof, List.headD_cons]
      rw [idxOf, if_pos rfl]
      rfl
    rw [hval] at h
    have hheads : leafB = leafA := by
      have h2 := Option.some.inj h
      have h3 := congrArg (fun l : List (List Nat) => l.headD []) h2
      simpa using h3
    exact absurd hheads (by decide)

/-- Concrete instance of the amended 3-leaf shape with distinct leaves. -/
theorem buildTree_three_witness :
    buildTree [leafA, leafB, leafC]
      = some (hashPair (hashPair leafA leafB) (hashPair leafC leafC),
          [[leafA, leafB, leafC],
           [hashPair leafA leafB, hashPair leafC leafC],
           [hashPair (hashPair leafA leafB) (hashPair leafC leafC)]]) ∧
    getProof leafC
        [[leafA, leafB, leafC],
         [hashPair leafA leafB, hashPair leafC leafC],
         [hashPair (hashPair leafA leafB) (hashPair leafC leafC)]]
      = some [leafC, hashPair leafA leafB] :=
  ⟨(buildTree_three leafA leafB leafC).1,
   (buildTree_three leafA leafB leafC).2 (by decide) (by decide)⟩

/-! ## Index safety of the proof walk -/

theorem buildLayers_chain : ∀ (fuel : Nat) (level : List (List Nat))
    (k : Nat), k + 1 < (buildLayers fuel level).length →
    (buildLayers fuel level).getD (k + 1) []
      = nextLevel ((buildLayers fuel level).getD k []) := by
  intro fuel
  induction fuel with
  | zero =>
      intro level k h
      simp [buildLayers] at h
  | succ fuel ih =>
      intro level k h
      by_cases hlen : level.length ≤ 1
      · simp [buildLayers, hlen] at h
      · have hbl : buildLayers (fuel + 1) level
            = level :: buildLayers fuel (nextLevel level) := by
          simp [buildLayers, hlen]
        rw [hbl] at h ⊢
        cases k with
        | zero =>
            simp only [List.getD_cons_succ, List.getD_cons_zero]
            obtain ⟨l₀, L', hL⟩ : ∃ l₀ L',
                buildLayers fuel (nextLevel level) = l₀ :: L' := by
              cases hbb : buildLayers fuel (nextLevel level) with
              | nil => exact absurd hbb (buildLayers_ne_nil _ _)
              | cons x xs => exact ⟨x, xs, rfl⟩
            have hhead := buildLayers_headD fuel (nextLevel level)
            rw [hL] at hhead ⊢
            simpa using hhead
        | succ k' =>
            simp only [List.getD_cons_succ]
            refine ih (nextLevel level) k' ?_
            simp only [List.length_cons] at h
            omega

/-- Claim C10: on layers produced by `buildTree` and a leaf present in
layer 0, every index `getProof`'s walk visits is in bounds — the running
index `idxOf / 2 ^ k` is a valid position of layer `k`, and the position
actually read for the sibling (the guarded `sibIdx`, falling back to the
index itself) is as well. -/
theorem getProof_index_safety (leaves : List (List Nat)) (root : List Nat)
    (layers : List (List (List Nat))) (leaf : List Nat)
    (hbt : buildTree leaves = some (root, layers))
    (hmem : leaf ∈ layers.headD []) :
    ∀ k, k < layers.length →
      idxOf leaf (layers.headD []) / 2 ^ k < (layers.getD k []).length ∧
      (if sibIdx (idxOf leaf (layers.headD []) / 2 ^ k)
          < (layers.getD k []).length
        then sibIdx (idxOf leaf (layers.headD []) / 2 ^ k)
        else idxOf leaf (layers.headD []) / 2 ^ k)
        < (layers.getD k []).length := by
  obtain ⟨hne, hlay, hroot⟩ := buildTree_eq leaves root layers hbt
  have hmain : ∀ k, k < layers.length →
      idxOf leaf (layers.headD []) / 2 ^ k < (layers.getD k []).length := by
    intro k
    induction k with
    | zero =>
        intro _
        have hhead : layers.headD [] = leaves := by
          rw [hlay, buildLayers_headD]
        have hzero : layers.getD 0 [] = leaves := by
          obtain ⟨l₀, L', hL⟩ : ∃ l₀ L', layers = l₀ :: L' := by
            cases hcl : layers with
            | nil =>
                rw [hlay] at hcl
                exact absurd hcl (buildLayers_ne_nil _ _)
            | cons x xs => exact ⟨x, xs, rfl⟩
          rw [hL]
          rw [hL] at hhead
          simpa using hhead
        rw [hzero, hhead, Nat.pow_zero, Nat.div_one]
        exact (idxOf_lt_length_iff leaf leaves).mpr
          (by rwa [hhead] at hmem)
    | succ k' ihk =>
        intro hk
        have hk' : k' < layers.length := by omega
        have hprev := ihk hk'
        have hchain : layers.getD (k' + 1) []
            = nextLevel (layers.getD k' []) := by
          rw [hlay]
          exact buildLayers_chain leaves.length leaves k' (by rwa [← hlay])
        have hlen : (layers.getD (k' + 1) []).length
            = ((layers.getD k' []).length + 1) / 2 := by
          rw [hchain, nextLevel_length]
        have hdiv : idxOf leaf (layers.headD []) / 2 ^ (k' + 1)
            = idxOf leaf (layers.headD []) / 2 ^ k' / 2 := by
          rw [Nat.pow_succ, ← Nat.div_div_eq_div_mul]
        rw [hdiv, hlen]
        omega
  intro k hk
  refine ⟨hmain k hk, ?_⟩
  split
  · rename_i hs
    exact hs
  · exact hmain k hk

/-- Concrete instance of the index-safety bound on a two-leaf tree. -/
theorem getProof_index_safety_witness :
    idxOf leafA ([[leafA, leafB], [hashPair leafA leafB]].headD [])
        / 2 ^ 0
      < ([[leafA, leafB], [hashPair leafA leafB]].getD 0 []).length ∧
    (if sibIdx (idxOf leafA
          ([[leafA, leafB], [hashPair leafA leafB]].headD []) / 2 ^ 0)
        < ([[leafA, leafB], [hashPair leafA leafB]].getD 0 []).length
      then sibIdx (idxOf leafA
          ([[leafA, leafB], [hashPair leafA leafB]].headD []) / 2 ^ 0)
      else idxOf leafA
          ([[leafA, leafB], [hashPair leafA leafB]].headD []) / 2 ^ 0)
      < ([[leafA, leafB], [hashPair leafA leafB]].getD 0 []).length :=
  getProof_index_safety [leafA, leafB] (hashPair leafA leafB)
    [[leafA, leafB], [hashPair leafA leafB]] leafA rfl (by decide)
    0 (by decide)

theorem v2_hashPair_eq (a b : List Nat) : V2.hashPair a b = hashPair a b :=
  rfl

theorem v3_hashPair_eq (a b : List Nat) : V3.hashPair a b = hashPair a b := by
  unfold V3.hashPair hashPair
  cases h : strLt (hexString a) (hexString b) <;> simp [h]

theorem v2_nextLevel_eq : ∀ l, V2.nextLevel l = nextLevel l
  | [] => rfl
  | [a] => rfl
  | a :: b :: rest => by
      simp only [V2.nextLevel, nextLevel, v2_hashPair_eq,
        v2_nextLevel_eq rest]

theorem v3_nextLevel_eq : ∀ l, V3.nextLevel l = nextLevel l
  | [] => rfl
  | [a] => by
      simp only [V3.nextLevel, nextLevel, v3_hashPair_eq]
  | a :: b :: rest => by
      simp only [V3.nextLevel, nextLevel, v3_hashPair_eq,
        v3_nextLevel_eq rest]

theorem v2_buildLayers_eq : ∀ (fuel : Nat) (l : List (List Nat)),
    V2.buildLayers fuel l = buildLayers fuel l
  | 0, _ => rfl
  | fuel + 1, l => by
      simp only [V2.buildLayers, buildLayers]
      split
      · rfl
      · rw [v2_nextLevel_eq, v2_buildLayers_eq fuel]

theorem v3_buildLayers_eq : ∀ (fuel : Nat) (l : List (List Nat)),
    V3.buildLayers fuel l = buildLayers fuel l
  | 0, _ => rfl
  | fuel + 1, l => by
      simp only [V3.buildLayers, buildLayers]
      split
      · rfl
      · rw [v3_nextLevel_eq, v3_buildLayers_eq fuel]

theorem v2_buildTree_eq (leaves : List (List Nat)) :
    V2.buildTree leaves = buildTree leaves := by
  simp only [V2.buildTree, buildTree, v2_buildLayers_eq]

theorem v3_buildTree_eq (leaves : List (List Nat)) :
    V3.buildTree leaves = buildTree leaves := by
  simp only [V3.buildTree, buildTree, v3_buildLayers_eq]

/-- Claim C9: the three script variants implement extensionally equal
Merkle cores — identical leaves, identical combined hashes, identical
`(root, layers)` results, and identical proofs on every input. -/
theorem variants_agree :
    (∀ (addr : List Nat) (amount loss : Nat),
      V2.leafPacked addr amount loss = leafPacked addr amount loss ∧
      V3.leafPacked addr amount loss = leafPacked addr amount loss) ∧
    (∀ a b : List Nat,
      V2.hashPair a b = hashPair a b ∧ V3.hashPair a b = hashPair a b) ∧
    (∀ leaves : List (List Nat),
      V2.buildTree leaves = buildTree leaves ∧
      V3.buildTree leaves = buildTree leaves) ∧
    (∀ (leaf : List Nat) (layers : List (List (List Nat))),
      V2.getProof leaf layers = getProof leaf layers ∧
      V3.getProof leaf layers = getProof leaf layers) :=
  ⟨fun _ _ _ => ⟨rfl, rfl⟩,
   fun a b => ⟨v2_hashPair_eq a b, v3_hashPair_eq a b⟩,
   fun leaves => ⟨v2_buildTree_eq leaves, v3_buildTree_eq leaves⟩,
   fun _ _ => ⟨rfl, rfl⟩⟩

/-! ## The packed leaf encoding, and the encoding `generate-claims.mjs`
  actually uses -/

theorem beBytes_length : ∀ n x : Nat, (beBytes n x).length = n
  | 0, _ => rfl
  | n + 1, x => by simp [beBytes, beBytes_length n]

theorem beBytes_lt : ∀ n x : Nat, ∀ c ∈ beBytes n x, c < 256
  | 0, _ => by simp [beBytes]
  | n + 1, x => by
      intro c hc
      simp only [beBytes, List.mem_append, List.mem_singleton] at hc
      rcases hc with hc | rfl
      · exact beBytes_lt n (x / 256) c hc
      · exact Nat.mod_lt _ (by norm_num)

theorem beValue_append_one (l : List Nat) (b : Nat) :
    beValue (l ++ [b]) = beValue l * 256 + b := by
  simp [beValue, List.foldl_append]

theorem beValue_beBytes : ∀ n x : Nat, x < 256 ^ n →
    beValue (beBytes n x) = x
  | 0, x, h => by
      have hx : x = 0 := by
        simp only [Nat.pow_zero] at h
        omega
      simp [beBytes, beValue, hx]
  | n + 1, x, h => by
      have hdiv : x / 256 < 256 ^ n := by
        refine (Nat.div_lt_iff_lt_mul (by norm_num)).mpr ?_
        rw [← pow_succ]
        exact h
      rw [beBytes, beValue_append_one, beValue_beBytes n (x / 256) hdiv]
      omega

/-- Claim C2, amended: `leafPacked` — the leaf of all three `gen-merkle`
variants — is Keccak-256 of the tight 84-byte packed concatenation of the
20 raw address bytes and the two 32-byte big-endian integer encodings,
with no prefixes or delimiters; but it is not the only leaf encoding in
the program: `generate-claims.mjs` (via `StandardMerkleTree`) hashes the
padded 96-byte ABI encoding, twice, and its leaf differs from
`leafPacked` in general. -/
theorem leafPacked_spec (addr : List Nat) (amount loss : Nat)
    (haddr : addr.length = 20)
    (ham : amount < 2 ^ 256) (hls : loss < 2 ^ 256) :
    leafPacked addr amount loss
      = keccak256 (addr ++ beBytes 32 amount ++ beBytes 32 loss) ∧
    (addr ++ beBytes 32 amount ++ beBytes 32 loss).length = 84 ∧
    (beBytes 32 amount).length = 32 ∧
    beValue (beBytes 32 amount) = amount ∧
    (beBytes 32 loss).length = 32 ∧
    beValue (beBytes 32 loss) = loss ∧
    standardLeafHash addr amount loss
      = keccak256 (keccak256 (abiEncodeLeaf addr amount loss)) ∧
    (abiEncodeLeaf addr amount loss).length = 96 ∧
    V2.leafPacked addr amount loss = leafPacked addr amount loss ∧
    V3.leafPacked addr amount loss = leafPacked addr amount loss := by
  have h256 : (2 : Nat) ^ 256 = 256 ^ 32 := by norm_num
  refine ⟨rfl, ?_, beBytes_length 32 amount,
    beValue_beBytes 32 amount (by omega), beBytes_length 32 loss,
    beValue_beBytes 32 loss (by omega), rfl, ?_, rfl, rfl⟩
  · simp [haddr, beBytes_length]
  · simp [abiEncodeLeaf, haddr, beBytes_length]

/-- Concrete instance of the packed-leaf characterisation, on the
all-zero record. -/
theorem leafPacked_spec_witness :
    leafPacked addrZero 0 0
      = keccak256 (addrZero ++ beBytes 32 0 ++ beBytes 32 0) ∧
    (addrZero ++ beBytes 32 0 ++ beBytes 32 0).length = 84 ∧
    (beBytes 32 0).length = 32 ∧
    beValue (beBytes 32 0) = 0 ∧
    (beBytes 32 0).length = 32 ∧
    beValue (beBytes 32 0) = 0 ∧
    standardLeafHash addrZero 0 0
      = keccak256 (keccak256 (abiEncodeLeaf addrZero 0 0)) ∧
    (abiEncodeLeaf addrZero 0 0).length = 96 ∧
    V2.leafPacked addrZero 0 0 = leafPacked addrZero 0 0 ∧
    V3.leafPacked addrZero 0 0 = leafPacked addrZero 0 0 :=
  leafPacked_spec addrZero 0 0 (by decide) (by positivity) (by positivity)

set_option maxRecDepth 1000000 in
set_option maxHeartbeats 4000000 in
/-- Claim C2's "same hash for every record" part is false at the all-zero
record: the `StandardMerkleTree` leaf of `generate-claims.mjs` differs
from `leafPacked`, and even a single (undoubled) Keccak of the padded ABI
encoding differs from `leafPacked`. -/
theorem standardLeaf_ne_leafPacked :
    standardLeafHash addrZero 0 0 ≠ leafPacked addrZero 0 0 ∧
    keccak256 (abiEncodeLeaf addrZero 0 0) ≠ leafPacked addrZero 0 0 := by
  decide

set_option maxRecDepth 100000 in
/-- Golden vector: the embedded Keccak-256 agrees with the published
digest of the three-byte message `"abc"`. -/
theorem keccak256_abc_vector : keccak256 [97, 98, 99] =
    [78, 3, 101, 122, 234, 69, 169, 79, 199, 212, 123, 168, 38, 200, 214, 103,
     192, 209, 230, 227, 58, 100, 160, 54, 236, 68, 245, 143, 161, 45, 108, 69] := by
  decide

end LilypadMerkle
